import Mathlib

/-!
Shallow embedding of `src/core/cellbuffer.rs` (rustty's terminal cell grid):
the `Color`, `Attr`, `Cell` value types and the row-major `CellBuffer` grid
with its operations `new`, `get`, `get_mut`, `clear`, `resize`, and the
`Index`/`IndexMut` instances.  Rust `usize` values are modelled as `Nat`
(no claim involves overflow); `Vec<Cell>` is a `List Cell`; fallible or
panicking operations return `Option`.
-/

/-- `enum Color` from the source: eight basic colors, an 8-bit palette entry
`Byte(u8)` (the payload modelled as `Nat`), and the `Default` sentinel. -/
inductive Color where
  | Black
  | Red
  | Green
  | Yellow
  | Blue
  | Magenta
  | Cyan
  | White
  | Byte (b : Nat)
  | Default
deriving DecidableEq, Repr

/-- `Color::as_byte`: the `u8` representation of a `Color`.  The source
panics on `Color::Default` ("Attempted to cast default color to u8");
the panic is modelled as `none`. -/
def Color.as_byte : Color → Option Nat
  | Color.Black => some 0x00
  | Color.Red => some 0x01
  | Color.Green => some 0x02
  | Color.Yellow => some 0x03
  | Color.Blue => some 0x04
  | Color.Magenta => some 0x05
  | Color.Cyan => some 0x06
  | Color.White => some 0x07
  | Color.Byte b => some b
  | Color.Default => none

/-- `enum Attr` from the source: all eight named attribute combinations. -/
inductive Attr where
  | Default
  | Bold
  | Underline
  | BoldUnderline
  | Reverse
  | BoldReverse
  | UnderlineReverse
  | BoldReverseUnderline
deriving DecidableEq, Repr

/-- The integer discriminant of each `Attr` variant, exactly the values
written in the source (`Default = 0b000`, ..., `BoldReverseUnderline = 0b111`). -/
def Attr.toNat : Attr → Nat
  | Attr.Default => 0b000
  | Attr.Bold => 0b001
  | Attr.Underline => 0b010
  | Attr.BoldUnderline => 0b011
  | Attr.Reverse => 0b100
  | Attr.BoldReverse => 0b101
  | Attr.UnderlineReverse => 0b110
  | Attr.BoldReverseUnderline => 0b111

/-- `struct Cell`: a character plus its style. -/
structure Cell where
  ch : Char
  fg : Color
  bg : Color
  attrs : Attr
deriving DecidableEq, Repr

/-- `Cell::new(ch, fg, bg, attrs)`: constructs a `Cell` from its fields verbatim. -/
def Cell.new (ch : Char) (fg : Color) (bg : Color) (attrs : Attr) : Cell :=
  { ch := ch, fg := fg, bg := bg, attrs := attrs }

/-- `impl Default for Cell`: `Cell::new(' ', Color::Default, Color::Default, Attr::Default)`. -/
def Cell.default : Cell :=
  Cell.new ' ' Color.Default Color.Default Attr.Default

/-- `struct CellBuffer`: a row-major grid; `buf` is the flat `Vec<Cell>`. -/
structure CellBuffer where
  cols : Nat
  rows : Nat
  buf : List Cell
deriving DecidableEq, Repr

/-- `CellBuffer::new(cols, rows)`: a vector of `cols * rows` copies of the
default `Cell` (`Vec::resize(len, Cell::default())` on an empty vector). -/
def CellBuffer.new (cols rows : Nat) : CellBuffer :=
  { cols := cols, rows := rows, buf := List.replicate (cols * rows) Cell.default }

/-- `CellBuffer::get(x, y)`: bounds-checked read.  When `x < cols && y < rows`
it reads flat offset `cols * y + x` with `Vec::get` (itself an `Option`);
otherwise `None`. -/
def CellBuffer.get (cb : CellBuffer) (x y : Nat) : Option Cell :=
  if x < cb.cols ∧ y < cb.rows then cb.buf[cb.cols * y + x]? else none

/-- `CellBuffer::get_mut(x, y)`: same bounds check and offset as `get`;
the returned mutable reference is modelled as the cell value read. -/
def CellBuffer.get_mut (cb : CellBuffer) (x y : Nat) : Option Cell :=
  if x < cb.cols ∧ y < cb.rows then cb.buf[cb.cols * y + x]? else none

/-- A write through `CellBuffer::get_mut(x, y)`: replaces the cell at flat
offset `cols * y + x` when the coordinate is in bounds, else no cell changes
(the source's `get_mut` returns `None` there, so nothing can be written). -/
def CellBuffer.setCell (cb : CellBuffer) (x y : Nat) (c : Cell) : CellBuffer :=
  if x < cb.cols ∧ y < cb.rows then
    { cb with buf := cb.buf.set (cb.cols * y + x) c }
  else cb

/-- `CellBuffer::clear(blank)`: overwrites every cell of `buf` with `blank`. -/
def CellBuffer.clear (cb : CellBuffer) (blank : Cell) : CellBuffer :=
  { cb with buf := cb.buf.map (fun _ => blank) }

/-- `impl Index<(usize, usize)>`: `self.get(x, y).expect("index out of bounds")`.
The `expect` panic is modelled by keeping the `Option`: `none` is the abort. -/
def CellBuffer.index (cb : CellBuffer) (x y : Nat) : Option Cell :=
  cb.get x y

/-- `impl IndexMut<(usize, usize)>`: `self.get_mut(x, y).expect("index out of bounds")`. -/
def CellBuffer.index_mut (cb : CellBuffer) (x y : Nat) : Option Cell :=
  cb.get_mut x y

/-- Rust slice indexing `&v[a..b]`: defined (as `some`) exactly when
`a ≤ b ∧ b ≤ v.len()`, otherwise it panics (`none`). -/
def sliceRange (l : List Cell) (a b : Nat) : Option (List Cell) :=
  if a ≤ b ∧ b ≤ l.length then some ((l.drop a).take (b - a)) else none

/-- `Vec::resize(new_len, value)`: truncates to `new_len` when shrinking,
appends copies of `value` when growing. -/
def vecResize (l : List Cell) (newLen : Nat) (v : Cell) : List Cell :=
  if newLen ≤ l.length then l.take newLen
  else l ++ List.replicate (newLen - l.length) v

/-- The `for y in 0..minrows` loop of `CellBuffer::resize`, unrolled from the
left: iteration `y` appends the slice `buf[oldcols*y .. oldcols*y + mincols]`
to the accumulator and then `Vec::resize`s it `x_ext` cells longer with
`blank`.  `none` propagates a slice panic. -/
def resizeLoop (buf : List Cell) (oldcols mincols x_ext : Nat) (blank : Cell) :
    Nat → Option (List Cell)
  | 0 => some []
  | n + 1 => do
      let acc ← resizeLoop buf oldcols mincols x_ext blank n
      let row ← sliceRange buf (oldcols * n) (oldcols * n + mincols)
      let acc2 := acc ++ row
      pure (vecResize acc2 (acc2.length + x_ext) blank)

/-- `CellBuffer::resize(newcols, newrows, blank)`: copies the overlapping
rectangle row by row, pads each copied row to `newcols` with `blank`, then
appends `(newrows - oldrows) * newcols` blanks (`saturating_sub` is `Nat`
subtraction), and installs the new dimensions.  `none` models the only
possible panic, an out-of-bounds slice in the copy loop. -/
def CellBuffer.resize (cb : CellBuffer) (newcols newrows : Nat) (blank : Cell) :
    Option CellBuffer := do
  let oldrows := cb.rows
  let oldcols := cb.cols
  let minrows := min oldrows newrows
  let mincols := min oldcols newcols
  let x_ext_len := newcols - oldcols
  let y_ext_len := (newrows - oldrows) * newcols
  let newbuf ← resizeLoop cb.buf oldcols mincols x_ext_len blank minrows
  let newbuf2 := vecResize newbuf (newbuf.length + y_ext_len) blank
  pure { cols := newcols, rows := newrows, buf := newbuf2 }

/-- The `CellBuffer` storage invariant from the spec: the flat vector holds
exactly `cols * rows` cells. -/
def CellBuffer.inv (cb : CellBuffer) : Prop :=
  cb.buf.length = cb.cols * cb.rows

/-! ## Helper lemmas about the resize machinery -/

theorem vecResize_append (l : List Cell) (k : Nat) (v : Cell) :
    vecResize l (l.length + k) v = l ++ List.replicate k v := by
  unfold vecResize
  rcases Nat.eq_zero_or_pos k with hk | hk
  · subst hk
    simp [List.take_length]
  · rw [if_neg (by omega)]
    simp [Nat.add_sub_cancel_left]

/-- Full characterization of the copy loop of `resize`: when every slice it
reads is in bounds, it succeeds; the result has one `mincols + x_ext`-wide
row per iteration; positions `x < mincols` of row `y` hold the old cell at
flat offset `oldcols * y + x`; positions `mincols ≤ x < mincols + x_ext`
hold `blank`. -/
theorem resizeLoop_spec (buf : List Cell) (oldcols mincols x_ext : Nat) (blank : Cell)
    (n : Nat) (hb : ∀ y, y < n → oldcols * y + mincols ≤ buf.length) :
    ∃ l, resizeLoop buf oldcols mincols x_ext blank n = some l ∧
      l.length = (mincols + x_ext) * n ∧
      (∀ y x, y < n → x < mincols →
        l[(mincols + x_ext) * y + x]? = buf[oldcols * y + x]?) ∧
      (∀ y x, y < n → mincols ≤ x → x < mincols + x_ext →
        l[(mincols + x_ext) * y + x]? = some blank) := by
  induction n with
  | zero =>
    refine ⟨[], rfl, by simp, ?_, ?_⟩
    · intro y x hy _
      exact absurd hy (Nat.not_lt_zero y)
    · intro y x hy _ _
      exact absurd hy (Nat.not_lt_zero y)
  | succ n ih =>
    obtain ⟨l, hl, hlen, hcopy, hfill⟩ := ih (fun y hy => hb y (Nat.lt_succ_of_lt hy))
    have hbn : oldcols * n + mincols ≤ buf.length := hb n (Nat.lt_succ_self n)
    have hslice : sliceRange buf (oldcols * n) (oldcols * n + mincols) =
        some ((buf.drop (oldcols * n)).take mincols) := by
      unfold sliceRange
      rw [if_pos ⟨Nat.le_add_right _ _, hbn⟩]
      simp [Nat.add_sub_cancel_left]
    have hrowlen : ((buf.drop (oldcols * n)).take mincols).length = mincols := by
      simp [List.length_take, List.length_drop]
      omega
    have hstep : resizeLoop buf oldcols mincols x_ext blank (n + 1) =
        some (l ++ ((buf.drop (oldcols * n)).take mincols) ++
          List.replicate x_ext blank) := by
      simp only [resizeLoop, hl, hslice, Option.bind_eq_bind, Option.some_bind,
        vecResize_append, Option.pure_def]
    refine ⟨_, hstep, ?_, ?_, ?_⟩
    · simp only [List.length_append, hlen, hrowlen, List.length_replicate, Nat.mul_succ]
      omega
    · intro y x hy hx
      have hxW : x < mincols + x_ext := Nat.lt_of_lt_of_le hx (Nat.le_add_right _ _)
      rcases Nat.lt_succ_iff_lt_or_eq.mp hy with hy' | rfl
      · have hidx : (mincols + x_ext) * y + x < l.length := by
          rw [hlen]
          calc (mincols + x_ext) * y + x < (mincols + x_ext) * y + (mincols + x_ext) := by
                omega
            _ = (mincols + x_ext) * (y + 1) := by rw [Nat.mul_succ]
            _ ≤ (mincols + x_ext) * n := Nat.mul_le_mul_left _ hy'
        rw [List.append_assoc, List.getElem?_append_left hidx]
        exact hcopy y x hy' hx
      · have hidx : l.length ≤ (mincols + x_ext) * y + x := by
          rw [hlen]
          exact Nat.le_add_right _ _
        rw [List.append_assoc, List.getElem?_append_right hidx, hlen,
          Nat.add_sub_cancel_left]
        rw [List.getElem?_append_left (by rw [hrowlen]; exact hx)]
        rw [List.getElem?_take, if_pos hx, List.getElem?_drop]
    · intro y x hy hx1 hx2
      rcases Nat.lt_succ_iff_lt_or_eq.mp hy with hy' | rfl
      · have hidx : (mincols + x_ext) * y + x < l.length := by
          rw [hlen]
          calc (mincols + x_ext) * y + x < (mincols + x_ext) * y + (mincols + x_ext) := by
                omega
            _ = (mincols + x_ext) * (y + 1) := by rw [Nat.mul_succ]
            _ ≤ (mincols + x_ext) * n := Nat.mul_le_mul_left _ hy'
        rw [List.append_assoc, List.getElem?_append_left hidx]
        exact hfill y x hy' hx1 hx2
      · have hidx : l.length ≤ (mincols + x_ext) * y + x := by
          rw [hlen]
          exact Nat.le_add_right _ _
        rw [List.append_assoc, List.getElem?_append_right hidx, hlen,
          Nat.add_sub_cancel_left]
        rw [List.getElem?_append_right (by rw [hrowlen]; exact hx1), hrowlen]
        rw [List.getElem?_replicate, if_pos (by omega)]

/-- Full characterization of `CellBuffer.resize` on a buffer satisfying the
length invariant: it succeeds, installs the new dimensions, has storage of
length `newcols * newrows`, preserves the overlapping rectangle and fills
everything else in the new grid with `blank`. -/
theorem resize_spec (cb : CellBuffer) (h : cb.inv) (newcols newrows : Nat) (blank : Cell) :
    ∃ cb2, cb.resize newcols newrows blank = some cb2 ∧
      cb2.cols = newcols ∧ cb2.rows = newrows ∧
      cb2.buf.length = newcols * newrows ∧
      (∀ y x, y < min cb.rows newrows → x < min cb.cols newcols →
        cb2.buf[newcols * y + x]? = cb.buf[cb.cols * y + x]?) ∧
      (∀ y x, y < newrows → x < newcols →
        (min cb.cols newcols ≤ x ∨ min cb.rows newrows ≤ y) →
        cb2.buf[newcols * y + x]? = some blank) := by
  have hW : min cb.cols newcols + (newcols - cb.cols) = newcols := by omega
  have hbound : ∀ y, y < min cb.rows newrows →
      cb.cols * y + min cb.cols newcols ≤ cb.buf.length := by
    intro y hy
    have h2 : y + 1 ≤ cb.rows := by omega
    calc cb.cols * y + min cb.cols newcols ≤ cb.cols * y + cb.cols := by omega
      _ = cb.cols * (y + 1) := by rw [Nat.mul_succ]
      _ ≤ cb.cols * cb.rows := Nat.mul_le_mul_left _ h2
      _ = cb.buf.length := h.symm
  obtain ⟨l, hl, hlen, hcopy, hfill⟩ :=
    resizeLoop_spec cb.buf cb.cols (min cb.cols newcols) (newcols - cb.cols) blank
      (min cb.rows newrows) hbound
  rw [hW] at hlen hcopy hfill
  have htot : newcols * min cb.rows newrows + (newrows - cb.rows) * newcols =
      newcols * newrows := by
    rcases Nat.le_total cb.rows newrows with hle | hle
    · obtain ⟨k, rfl⟩ : ∃ k, newrows = cb.rows + k := ⟨newrows - cb.rows, by omega⟩
      rw [Nat.min_eq_left (Nat.le_add_right _ _), Nat.add_sub_cancel_left]
      ring
    · rw [Nat.min_eq_right hle, Nat.sub_eq_zero_of_le hle, Nat.zero_mul,
        Nat.add_zero]
  have hres : cb.resize newcols newrows blank =
      some ⟨newcols, newrows, l ++ List.replicate ((newrows - cb.rows) * newcols) blank⟩ := by
    simp only [CellBuffer.resize, hl, Option.bind_eq_bind, Option.some_bind,
      vecResize_append, Option.pure_def]
  refine ⟨_, hres, rfl, rfl, ?_, ?_, ?_⟩
  · simp only [List.length_append, hlen, List.length_replicate]
    exact htot
  · intro y x hy hx
    have hxc : x < newcols := by omega
    have hidx : newcols * y + x < l.length := by
      rw [hlen]
      calc newcols * y + x < newcols * y + newcols := by omega
        _ = newcols * (y + 1) := by rw [Nat.mul_succ]
        _ ≤ newcols * min cb.rows newrows := Nat.mul_le_mul_left _ (by omega)
    show (l ++ _)[newcols * y + x]? = _
    rw [List.getElem?_append_left hidx]
    exact hcopy y x hy hx
  · intro y x hy hx hout
    by_cases hy' : min cb.rows newrows ≤ y
    · have hle : l.length ≤ newcols * y + x := by
        rw [hlen]
        exact Nat.le_trans (Nat.mul_le_mul_left _ hy') (Nat.le_add_right _ _)
      have hlt : newcols * y + x < newcols * newrows := by
        calc newcols * y + x < newcols * y + newcols := by omega
          _ = newcols * (y + 1) := by rw [Nat.mul_succ]
          _ ≤ newcols * newrows := Nat.mul_le_mul_left _ (by omega)
      show (l ++ _)[newcols * y + x]? = _
      rw [List.getElem?_append_right hle, List.getElem?_replicate,
        if_pos (by rw [hlen]; omega)]
    · have hy2 : y < min cb.rows newrows := by omega
      have hx2 : min cb.cols newcols ≤ x := by
        rcases hout with hx' | hy''
        · exact hx'
        · exact absurd hy'' hy'
      have hidx : newcols * y + x < l.length := by
        rw [hlen]
        calc newcols * y + x < newcols * y + newcols := by omega
          _ = newcols * (y + 1) := by rw [Nat.mul_succ]
          _ ≤ newcols * min cb.rows newrows := Nat.mul_le_mul_left _ (by omega)
      show (l ++ _)[newcols * y + x]? = _
      rw [List.getElem?_append_left hidx]
      exact hfill y x hy2 hx2 hx

/-- The copy loop of `resize`, when the target width equals the old width and
there is no horizontal extension, reproduces a prefix of the old storage. -/
theorem resizeLoop_id (buf : List Cell) (oldcols : Nat) (blank : Cell) :
    ∀ n, oldcols * n ≤ buf.length →
    resizeLoop buf oldcols oldcols 0 blank n = some (buf.take (oldcols * n)) := by
  intro n
  induction n with
  | zero =>
    intro _
    simp [resizeLoop]
  | succ n ih =>
    intro hn
    have hsucc : oldcols * (n + 1) = oldcols * n + oldcols := Nat.mul_succ oldcols n
    have hn' : oldcols * n ≤ buf.length :=
      Nat.le_trans (Nat.mul_le_mul_left _ (Nat.le_succ n)) hn
    have hslice : sliceRange buf (oldcols * n) (oldcols * n + oldcols) =
        some ((buf.drop (oldcols * n)).take oldcols) := by
      unfold sliceRange
      rw [if_pos ⟨Nat.le_add_right _ _, by rw [← hsucc]; exact hn⟩]
      simp [Nat.add_sub_cancel_left]
    simp only [resizeLoop, ih hn', hslice, Option.bind_eq_bind, Option.some_bind,
      Option.pure_def, vecResize_append, List.replicate_zero, List.append_nil]
    rw [hsucc, List.take_add]

/-! ## Claim theorems -/

/-- Claim C1: for every `CellBuffer` (satisfying the storage invariant) and
every `resize(new_cols, new_rows, blank)`, every coordinate `(x, y)` with
`x < min(old_cols, new_cols)` and `y < min(old_rows, new_rows)` holds the
same `Cell` after the resize as before. -/
theorem C1_resize_preserves (cb : CellBuffer) (h : cb.inv)
    (newcols newrows : Nat) (blank : Cell) (cb2 : CellBuffer)
    (hr : cb.resize newcols newrows blank = some cb2)
    (x y : Nat) (hx : x < min cb.cols newcols) (hy : y < min cb.rows newrows) :
    cb2.get x y = cb.get x y := by
  obtain ⟨cb2', hr', hc, hrw, _, hcopy, _⟩ := resize_spec cb h newcols newrows blank
  rw [hr] at hr'
  obtain rfl := Option.some.inj hr'
  have hx1 : x < cb.cols := by omega
  have hx2 : x < newcols := by omega
  have hy1 : y < cb.rows := by omega
  have hy2 : y < newrows := by omega
  unfold CellBuffer.get
  rw [hc, hrw, if_pos ⟨hx2, hy2⟩, if_pos ⟨hx1, hy1⟩]
  exact hcopy y x hy hx

theorem C1_resize_preserves_witness :
    (CellBuffer.new 3 3).get 1 1 = (CellBuffer.new 2 2).get 1 1 :=
  C1_resize_preserves (CellBuffer.new 2 2) rfl 3 3 Cell.default
    (CellBuffer.new 3 3) rfl 1 1 (by decide) (by decide)

/-- Claim C2: after `resize(new_cols, new_rows, blank)` on a buffer satisfying
the storage invariant, every coordinate of the new grid outside the preserved
rectangle (`x ≥ min(old_cols, new_cols)` or `y ≥ min(old_rows, new_rows)`,
with `x < new_cols`, `y < new_rows`) holds exactly `blank`. -/
theorem C2_resize_fill (cb : CellBuffer) (h : cb.inv)
    (newcols newrows : Nat) (blank : Cell) (cb2 : CellBuffer)
    (hr : cb.resize newcols newrows blank = some cb2)
    (x y : Nat) (hx : x < newcols) (hy : y < newrows)
    (hout : min cb.cols newcols ≤ x ∨ min cb.rows newrows ≤ y) :
    cb2.get x y = some blank := by
  obtain ⟨cb2', hr', hc, hrw, _, _, hfill⟩ := resize_spec cb h newcols newrows blank
  rw [hr] at hr'
  obtain rfl := Option.some.inj hr'
  unfold CellBuffer.get
  rw [hc, hrw, if_pos ⟨hx, hy⟩]
  exact hfill y x hy hx hout

theorem C2_resize_fill_witness :
    (CellBuffer.new 3 3).get 2 0 = some Cell.default :=
  C2_resize_fill (CellBuffer.new 2 2) rfl 3 3 Cell.default
    (CellBuffer.new 3 3) rfl 2 0 (by decide) (by decide) (Or.inl (by decide))

/-- Claim C3: the storage invariant `buf.len() = cols * rows` holds after
`new(c, r)` (with `c = 0` or `r = 0` yielding an empty buffer) and is
preserved by `clear`, by in-bounds cell writes, and by `resize`, after which
`cols` and `rows` equal the new dimensions. -/
theorem C3_length_invariant :
    (∀ c r, (CellBuffer.new c r).inv ∧ (CellBuffer.new c r).cols = c ∧
      (CellBuffer.new c r).rows = r ∧
      (c = 0 ∨ r = 0 → (CellBuffer.new c r).buf = [])) ∧
    (∀ (cb : CellBuffer) (blank : Cell), cb.inv → (cb.clear blank).inv ∧
      (cb.clear blank).cols = cb.cols ∧ (cb.clear blank).rows = cb.rows) ∧
    (∀ (cb : CellBuffer) (x y : Nat) (c : Cell), cb.inv → (cb.setCell x y c).inv ∧
      (cb.setCell x y c).cols = cb.cols ∧ (cb.setCell x y c).rows = cb.rows) ∧
    (∀ (cb : CellBuffer) (newcols newrows : Nat) (blank : Cell), cb.inv →
      ∃ cb2, cb.resize newcols newrows blank = some cb2 ∧
      cb2.cols = newcols ∧ cb2.rows = newrows ∧ cb2.inv) := by
  refine ⟨?_, ?_, ?_, ?_⟩
  · intro c r
    refine ⟨?_, rfl, rfl, ?_⟩
    · show (List.replicate (c * r) Cell.default).length = c * r
      simp
    · rintro (rfl | rfl) <;> simp [CellBuffer.new]
  · intro cb blank h
    refine ⟨?_, rfl, rfl⟩
    show (cb.buf.map _).length = cb.cols * cb.rows
    simpa using h
  · intro cb x y c h
    unfold CellBuffer.setCell
    split
    · exact ⟨by simpa [CellBuffer.inv] using h, rfl, rfl⟩
    · exact ⟨h, rfl, rfl⟩
  · intro cb newcols newrows blank h
    obtain ⟨cb2, hr, hc, hrw, hlen, _, _⟩ := resize_spec cb h newcols newrows blank
    refine ⟨cb2, hr, hc, hrw, ?_⟩
    show cb2.buf.length = cb2.cols * cb2.rows
    rw [hlen, hc, hrw]

theorem C3_length_invariant_witness :
    (CellBuffer.new 2 3).inv ∧ ((CellBuffer.new 2 3).clear Cell.default).inv ∧
    ((CellBuffer.new 2 3).setCell 1 2 Cell.default).inv ∧
    (∃ cb2, (CellBuffer.new 2 3).resize 4 1 Cell.default = some cb2 ∧ cb2.inv) := by
  refine ⟨(C3_length_invariant.1 2 3).1,
    (C3_length_invariant.2.1 (CellBuffer.new 2 3) Cell.default rfl).1,
    (C3_length_invariant.2.2.1 (CellBuffer.new 2 3) 1 2 Cell.default rfl).1, ?_⟩
  obtain ⟨cb2, h1, _, _, h4⟩ :=
    C3_length_invariant.2.2.2 (CellBuffer.new 2 3) 4 1 Cell.default rfl
  exact ⟨cb2, h1, h4⟩

/-- Claim C4: on a buffer satisfying the storage invariant, `get(x, y)` and
`get_mut(x, y)` return the cell stored at flat offset `y * cols + x` when
`x < cols` and `y < rows` (the result is present, i.e. no panic and no `None`),
and return `None` otherwise; both are total functions, so neither panics. -/
theorem C4_get_bounds (cb : CellBuffer) (h : cb.inv) (x y : Nat) :
    (x < cb.cols ∧ y < cb.rows →
      cb.get x y = cb.buf[cb.cols * y + x]? ∧
      cb.get_mut x y = cb.buf[cb.cols * y + x]? ∧
      (cb.get x y).isSome = true) ∧
    (¬(x < cb.cols ∧ y < cb.rows) →
      cb.get x y = none ∧ cb.get_mut x y = none) := by
  constructor
  · rintro ⟨hx, hy⟩
    have hidx : cb.cols * y + x < cb.buf.length := by
      rw [h]
      calc cb.cols * y + x < cb.cols * y + cb.cols := by omega
        _ = cb.cols * (y + 1) := by rw [Nat.mul_succ]
        _ ≤ cb.cols * cb.rows := Nat.mul_le_mul_left _ hy
    refine ⟨?_, ?_, ?_⟩
    · unfold CellBuffer.get
      rw [if_pos ⟨hx, hy⟩]
    · unfold CellBuffer.get_mut
      rw [if_pos ⟨hx, hy⟩]
    · unfold CellBuffer.get
      rw [if_pos ⟨hx, hy⟩, List.getElem?_eq_getElem hidx]
      rfl
  · intro hn
    constructor
    · unfold CellBuffer.get
      rw [if_neg hn]
    · unfold CellBuffer.get_mut
      rw [if_neg hn]

theorem C4_get_bounds_witness :
    ((CellBuffer.new 2 2).get 1 1 = (CellBuffer.new 2 2).buf[2 * 1 + 1]? ∧
      (CellBuffer.new 2 2).get_mut 1 1 = (CellBuffer.new 2 2).buf[2 * 1 + 1]? ∧
      ((CellBuffer.new 2 2).get 1 1).isSome = true) ∧
    ((CellBuffer.new 2 2).get 5 0 = none ∧ (CellBuffer.new 2 2).get_mut 5 0 = none) :=
  ⟨(C4_get_bounds (CellBuffer.new 2 2) rfl 1 1).1 (by decide),
    (C4_get_bounds (CellBuffer.new 2 2) rfl 5 0).2 (by decide)⟩

/-- Claim C5: `Color::as_byte` returns `0x00`..`0x07` for the eight basic
colors in order, returns `b` for `Byte(b)`, and panics (modelled as `none`)
for `Default`; equality on `Color` is structural, so `Red ≠ Byte(0x01)` even
though their byte encodings coincide. -/
theorem C5_color_as_byte :
    Color.as_byte Color.Black = some 0x00 ∧
    Color.as_byte Color.Red = some 0x01 ∧
    Color.as_byte Color.Green = some 0x02 ∧
    Color.as_byte Color.Yellow = some 0x03 ∧
    Color.as_byte Color.Blue = some 0x04 ∧
    Color.as_byte Color.Magenta = some 0x05 ∧
    Color.as_byte Color.Cyan = some 0x06 ∧
    Color.as_byte Color.White = some 0x07 ∧
    (∀ b : Nat, Color.as_byte (Color.Byte b) = some b) ∧
    Color.as_byte Color.Default = none ∧
    Color.Red ≠ Color.Byte 0x01 ∧
    Color.as_byte Color.Red = Color.as_byte (Color.Byte 0x01) := by
  refine ⟨rfl, rfl, rfl, rfl, rfl, rfl, rfl, rfl, fun b => rfl, rfl, ?_, rfl⟩
  intro hcontra
  cases hcontra

/-- Claim C6: indexed access `buf[(x, y)]` and its mutable form return the
same cell as `get(x, y)` / `get_mut(x, y)` when `x < cols` and `y < rows`
(present, so the `expect` does not abort), and abort (modelled as `none`)
when the coordinate is out of range. -/
theorem C6_index_unwraps_get (cb : CellBuffer) (h : cb.inv) (x y : Nat) :
    (x < cb.cols ∧ y < cb.rows →
      cb.index x y = cb.get x y ∧ cb.index_mut x y = cb.get_mut x y ∧
      (cb.index x y).isSome = true ∧ (cb.index_mut x y).isSome = true) ∧
    (¬(x < cb.cols ∧ y < cb.rows) →
      cb.index x y = none ∧ cb.index_mut x y = none) := by
  constructor
  · rintro ⟨hx, hy⟩
    have hidx : cb.cols * y + x < cb.buf.length := by
      rw [h]
      calc cb.cols * y + x < cb.cols * y + cb.cols := by omega
        _ = cb.cols * (y + 1) := by rw [Nat.mul_succ]
        _ ≤ cb.cols * cb.rows := Nat.mul_le_mul_left _ hy
    refine ⟨rfl, rfl, ?_, ?_⟩
    · show (cb.get x y).isSome = true
      unfold CellBuffer.get
      rw [if_pos ⟨hx, hy⟩, List.getElem?_eq_getElem hidx]
      rfl
    · show (cb.get_mut x y).isSome = true
      unfold CellBuffer.get_mut
      rw [if_pos ⟨hx, hy⟩, List.getElem?_eq_getElem hidx]
      rfl
  · intro hn
    constructor
    · show cb.get x y = none
      unfold CellBuffer.get
      rw [if_neg hn]
    · show cb.get_mut x y = none
      unfold CellBuffer.get_mut
      rw [if_neg hn]

theorem C6_index_unwraps_get_witness :
    ((CellBuffer.new 3 3).index 1 2 = (CellBuffer.new 3 3).get 1 2 ∧
      (CellBuffer.new 3 3).index_mut 1 2 = (CellBuffer.new 3 3).get_mut 1 2 ∧
      ((CellBuffer.new 3 3).index 1 2).isSome = true ∧
      ((CellBuffer.new 3 3).index_mut 1 2).isSome = true) ∧
    ((CellBuffer.new 3 3).index 100 100 = none ∧
      (CellBuffer.new 3 3).index_mut 100 100 = none) :=
  ⟨(C6_index_unwraps_get (CellBuffer.new 3 3) rfl 1 2).1 (by decide),
    (C6_index_unwraps_get (CellBuffer.new 3 3) rfl 100 100).2 (by decide)⟩

/-- Claim C7: after `new(cols, rows)` the storage has `cols * rows` cells and
every one of them equals the default `Cell`, which is
`Cell(' ', Color::Default, Color::Default, Attr::Default)`. -/
theorem C7_new_default_fill (cols rows i : Nat) (hi : i < cols * rows) :
    (CellBuffer.new cols rows).buf.length = cols * rows ∧
    (CellBuffer.new cols rows).buf[i]? = some Cell.default ∧
    Cell.default = Cell.new ' ' Color.Default Color.Default Attr.Default := by
  refine ⟨by simp [CellBuffer.new], ?_, rfl⟩
  show (List.replicate (cols * rows) Cell.default)[i]? = some Cell.default
  rw [List.getElem?_replicate, if_pos hi]

theorem C7_new_default_fill_witness :
    (CellBuffer.new 3 2).buf.length = 3 * 2 ∧
    (CellBuffer.new 3 2).buf[4]? = some Cell.default ∧
    Cell.default = Cell.new ' ' Color.Default Color.Default Attr.Default :=
  C7_new_default_fill 3 2 4 (by decide)

/-- Claim C8: the integer encoding of every named `Attr` equals the bitwise
OR of the bits its name describes (bit 0 = bold, bit 1 = underline,
bit 2 = reverse). -/
theorem C8_attr_encoding :
    Attr.toNat Attr.Default = 0 ∧
    Attr.toNat Attr.Bold = 1 ∧
    Attr.toNat Attr.Underline = 2 ∧
    Attr.toNat Attr.BoldUnderline = (1 ||| 2) ∧
    Attr.toNat Attr.Reverse = 4 ∧
    Attr.toNat Attr.BoldReverse = (1 ||| 4) ∧
    Attr.toNat Attr.UnderlineReverse = (2 ||| 4) ∧
    Attr.toNat Attr.BoldReverseUnderline = (1 ||| 2 ||| 4) := by
  decide

/-- Claim C9: resizing a buffer (satisfying the storage invariant) to its
current dimensions with any blank leaves it unchanged: the operation succeeds
and returns exactly the original buffer. -/
theorem C9_resize_idempotent (cb : CellBuffer) (h : cb.inv) (blank : Cell) :
    cb.resize cb.cols cb.rows blank = some cb := by
  have hloop := resizeLoop_id cb.buf cb.cols blank cb.rows (le_of_eq h.symm)
  simp only [CellBuffer.resize, Nat.min_self, Nat.sub_self, Nat.zero_mul, hloop,
    Option.bind_eq_bind, Option.some_bind, Option.pure_def, Option.some.injEq]
  rw [← h, List.take_length, Nat.add_zero]
  unfold vecResize
  rw [if_pos (Nat.le_refl _), List.take_length]

theorem C9_resize_idempotent_witness :
    (CellBuffer.new 2 3).resize 2 3 Cell.default = some (CellBuffer.new 2 3) :=
  C9_resize_idempotent (CellBuffer.new 2 3) rfl Cell.default

/-- Claim C10: on a buffer satisfying the storage invariant, every slice
`buf[oldcols*y .. oldcols*y + min(oldcols, newcols)]` read by `resize` is
within the old storage for every `y < min(oldrows, newrows)`, so `resize`
never panics on an out-of-bounds slice, for any dimensions including zero. -/
theorem C10_resize_slice_safe (cb : CellBuffer) (h : cb.inv)
    (newcols newrows : Nat) (blank : Cell) :
    (∀ y, y < min cb.rows newrows →
      cb.cols * y + min cb.cols newcols ≤ cb.buf.length ∧
      (sliceRange cb.buf (cb.cols * y) (cb.cols * y + min cb.cols newcols)).isSome
        = true) ∧
    (cb.resize newcols newrows blank).isSome = true := by
  constructor
  · intro y hy
    have hb : cb.cols * y + min cb.cols newcols ≤ cb.buf.length := by
      have h2 : y + 1 ≤ cb.rows := by omega
      calc cb.cols * y + min cb.cols newcols ≤ cb.cols * y + cb.cols := by omega
        _ = cb.cols * (y + 1) := by rw [Nat.mul_succ]
        _ ≤ cb.cols * cb.rows := Nat.mul_le_mul_left _ h2
        _ = cb.buf.length := h.symm
    refine ⟨hb, ?_⟩
    unfold sliceRange
    rw [if_pos ⟨Nat.le_add_right _ _, hb⟩]
    rfl
  · obtain ⟨cb2, hr, _⟩ := resize_spec cb h newcols newrows blank
    rw [hr]
    rfl

theorem C10_resize_slice_safe_witness :
    (2 * 1 + min 2 5 ≤ (CellBuffer.new 2 3).buf.length ∧
      (sliceRange (CellBuffer.new 2 3).buf (2 * 1) (2 * 1 + min 2 5)).isSome = true) ∧
    ((CellBuffer.new 2 3).resize 5 4 Cell.default).isSome = true :=
  ⟨(C10_resize_slice_safe (CellBuffer.new 2 3) rfl 5 4 Cell.default).1 1 (by decide),
    (C10_resize_slice_safe (CellBuffer.new 2 3) rfl 5 4 Cell.default).2⟩
